import Mathlib

/-!
Verification of the `lru_with_history` cache (`src/lib.rs`).

The Rust structure `LRU` owns a `LinkedHashMap<String, Bytes>` (iteration
order = insertion order, `pop_front` removes the oldest entry, re-inserting
an existing key moves it to the back), a byte-size total `current_size`, a
capacity bound `max_size`, a `VecDeque<String>` eviction history (newest at
the front), and two counters `accesses` / `hits`.

Shallow embedding: the ordered map becomes an association list whose head is
the oldest entry; `Bytes` values become `String`s measured by `String.length`;
the `while` eviction loop of `insert`, which in Rust can spin forever when
`pop_front` yields nothing while the guard still holds, is given a fuel
parameter, `none` meaning the loop did not finish within the given fuel.
-/

set_option autoImplicit false

/-- First value stored under `key`, as `LinkedHashMap::get` returns it. -/
def lookupKey : List (String × String) → String → Option String
  | [], _ => none
  | (k, v) :: rest, key => if k == key then some v else lookupKey rest key

/-- Total length of the stored values, the quantity `current_size` is meant
to track. -/
def sumLen : List (String × String) → Nat
  | [] => 0
  | p :: rest => p.2.length + sumLen rest

/-- State of the Rust `LRU` struct. `items` is the ordered map, oldest entry
first; `history` holds evicted keys, newest first. -/
structure LRU where
  items : List (String × String)
  max_size : Nat
  current_size : Nat
  history : List String
  accesses : Nat
  hits : Nat
deriving Repr, DecidableEq

/-- Rust `LRU::new()`: empty map, `max_size = 64`, zeroed counters. The
`with_capacity(1000)` of the history deque only pre-allocates. -/
def LRU.new : LRU :=
  { items := [], max_size := 64, current_size := 0, history := [],
    accesses := 0, hits := 0 }

/-- Rust builder `LRU::max_size(self, size)` (named `with_max_size` here
because the field already carries the source name). -/
def LRU.with_max_size (s : LRU) (size : Nat) : LRU :=
  { s with max_size := size }

/-- Rust `LRU::contains_key`. -/
def LRU.contains_key (s : LRU) (key : String) : Bool :=
  s.items.any (fun p => p.1 == key)

/-- Rust `LRU::has_evicted_recently`: linear scan of the history deque. -/
def LRU.has_evicted_recently (s : LRU) (key : String) : Bool :=
  s.history.any (fun historical_key => historical_key == key)

/-- Rust `LRU::get`: bump `accesses`, bump `hits` iff the key is present,
return the stored value without reordering anything. -/
def LRU.get (s : LRU) (key : String) : Option String × LRU :=
  let s1 := { s with accesses := s.accesses + 1 }
  let s2 := if s1.contains_key key then { s1 with hits := s1.hits + 1 } else s1
  (lookupKey s2.items key, s2)

/-- One iteration of the eviction loop body of `LRU::insert`: on
`pop_front` returning an entry, subtract its length from `current_size`,
drop the rearmost history entry when the history is longer than `max_size`,
and push the evicted key at the front. When the map is empty the body does
nothing (the `if let` has no else branch). -/
def evictOnce (s : LRU) : LRU :=
  match s.items with
  | [] => s
  | (popped_key, popped_item) :: rest =>
      { s with
        items := rest,
        current_size := s.current_size - popped_item.length,
        history :=
          popped_key ::
            (if s.history.length > s.max_size then s.history.dropLast
             else s.history) }

/-- Fueled form of `while current_size + vlen > max_size { ... }`.
Returns `some` of the post-loop state when the guard turns false within
`fuel` iterations, `none` otherwise; since the body makes no progress on an
empty map, `none` for every fuel renders the Rust infinite loop. -/
def evictLoopFuel (vlen : Nat) : Nat → LRU → Option LRU
  | 0, s => if s.current_size + vlen > s.max_size then none else some s
  | fuel + 1, s =>
      if s.current_size + vlen > s.max_size then
        evictLoopFuel vlen fuel (evictOnce s)
      else some s

/-- Rust `LRU::insert`: run the eviction loop, add `value.len()` to
`current_size` (without subtracting an overwritten value's length), and
upsert `(key, value)` as the newest entry, returning the previous value
under `key` if it survived the loop. `none` when the loop spun past
`fuel` iterations. -/
def LRU.insertFuel (s : LRU) (fuel : Nat) (key value : String) :
    Option (Option String × LRU) :=
  match evictLoopFuel value.length fuel s with
  | none => none
  | some s1 =>
      some (lookupKey s1.items key,
        { s1 with
          current_size := s1.current_size + value.length,
          items := s1.items.filter (fun p => p.1 != key) ++ [(key, value)] })

/-- Driver for concrete runs: execute `insert` with fuel `items.length + 1`,
enough for every terminating call, keeping the state unchanged on fuel
exhaustion. -/
def runInsert (s : LRU) (key value : String) : LRU :=
  match s.insertFuel (s.items.length + 1) key value with
  | some r => r.2
  | none => s

/-- Divergence of `insert` at a given state and arguments: no amount of
fuel lets the eviction loop finish. -/
def LRU.insertDiverges (s : LRU) (key value : String) : Prop :=
  ∀ fuel : Nat, s.insertFuel fuel key value = none

/-! ### Concrete states used by the claim theorems -/

/-- Cache of the eviction doc-test: `max_size = 5`, `("a", "abc")` then
`("b", "dfg")` inserted. -/
def evictionCase : LRU :=
  runInsert (runInsert (LRU.new.with_max_size 5) "a" "abc") "b" "dfg"

/-- Default cache after `insert("a", "ab")` executed twice. -/
def doubleInsert : LRU :=
  runInsert (runInsert LRU.new "a" "ab") "a" "ab"

/-- Cache of capacity 2 holding the single entry `("a", "xy")` of length 2,
reached by one insertion. -/
def fullOfA : LRU := runInsert (LRU.new.with_max_size 2) "a" "xy"

/-- Cache of capacity 1 after inserting `a`, `b`, `c` with one-byte values:
two evictions have happened. -/
def threeSmall : LRU :=
  runInsert (runInsert (runInsert (LRU.new.with_max_size 1) "a" "x") "b" "y")
    "c" "z"

/-- Cache of capacity 2 after alternating `("a","xy")`, `("b","yz")`,
`("a","xy")`, `("b","yz")`: three evictions, `a` evicted twice. -/
def alternating : LRU :=
  runInsert
    (runInsert (runInsert (runInsert (LRU.new.with_max_size 2) "a" "xy")
      "b" "yz") "a" "xy") "b" "yz"

/-! ### Helper lemmas -/

theorem evictOnce_max_size (s : LRU) : (evictOnce s).max_size = s.max_size := by
  obtain ⟨items, m, c, hist, a, h⟩ := s
  cases items with
  | nil => rfl
  | cons p rest => obtain ⟨k, v⟩ := p; rfl

theorem evictOnce_accesses (s : LRU) : (evictOnce s).accesses = s.accesses := by
  obtain ⟨items, m, c, hist, a, h⟩ := s
  cases items with
  | nil => rfl
  | cons p rest => obtain ⟨k, v⟩ := p; rfl

theorem evictOnce_hits (s : LRU) : (evictOnce s).hits = s.hits := by
  obtain ⟨items, m, c, hist, a, h⟩ := s
  cases items with
  | nil => rfl
  | cons p rest => obtain ⟨k, v⟩ := p; rfl

/-- A successful run of the eviction loop ends with the guard false and
leaves `max_size` and the two counters untouched. -/
theorem evictLoopFuel_some (vlen : Nat) :
    ∀ (fuel : Nat) (s s1 : LRU), evictLoopFuel vlen fuel s = some s1 →
      s1.current_size + vlen ≤ s1.max_size ∧ s1.max_size = s.max_size ∧
      s1.accesses = s.accesses ∧ s1.hits = s.hits := by
  intro fuel
  induction fuel with
  | zero =>
      intro s s1 h
      unfold evictLoopFuel at h
      by_cases hg : s.current_size + vlen > s.max_size
      · simp [hg] at h
      · simp [hg] at h
        subst h
        exact ⟨Nat.le_of_not_lt hg, rfl, rfl, rfl⟩
  | succ n ih =>
      intro s s1 h
      unfold evictLoopFuel at h
      by_cases hg : s.current_size + vlen > s.max_size
      · simp [hg] at h
        obtain ⟨h1, h2, h3, h4⟩ := ih (evictOnce s) s1 h
        exact ⟨h1, h2.trans (evictOnce_max_size s),
          h3.trans (evictOnce_accesses s), h4.trans (evictOnce_hits s)⟩
      · simp [hg] at h
        subst h
        exact ⟨Nat.le_of_not_lt hg, rfl, rfl, rfl⟩

/-! ### Claim theorems -/

/-- C1: every `insert` call that returns leaves `current_size <= max_size`
(in particular this holds along any sequence of insertions in which no
single value is longer than `max_size`, every call of which returns). -/
theorem C1_capacity_after_insert (fuel : Nat) (s : LRU) (key value : String)
    (r : Option String × LRU) (h : s.insertFuel fuel key value = some r) :
    r.2.current_size ≤ r.2.max_size := by
  unfold LRU.insertFuel at h
  cases hloop : evictLoopFuel value.length fuel s with
  | none => rw [hloop] at h; exact absurd h (by simp)
  | some s1 =>
      rw [hloop] at h
      simp only [Option.some.injEq] at h
      obtain ⟨hg, -, -, -⟩ := evictLoopFuel_some value.length fuel s s1 hloop
      rw [← h]
      simpa using hg

theorem C1_capacity_after_insert_w :
    (LRU.mk [("a", "b")] 64 1 [] 0 0).current_size ≤
      (LRU.mk [("a", "b")] 64 1 [] 0 0).max_size :=
  C1_capacity_after_insert 1 LRU.new "a" "b"
    (none, LRU.mk [("a", "b")] 64 1 [] 0 0) (by decide)

/-- C2 fails on the code: after inserting `("a", "ab")` twice into a fresh
cache, `current_size` is 4 while the values in the mapping total 2, because
`insert` adds `len(new value)` without subtracting the overwritten value's
length. -/
theorem C2_size_accounting_bug :
    doubleInsert.current_size = 4 ∧ sumLen doubleInsert.items = 2 := by decide

/-- C3 fails on the code: overwriting `("a", "ab")` with `("a", "abcd")`
does return the previous value `"ab"`, but `current_size` becomes 6 (old 2
plus `len("abcd")`), not the 4 the claim's delta `len(new) - len(old)`
demands; the stored values total 4. -/
theorem C3_overwrite_accounting_bug :
    (runInsert LRU.new "a" "ab").insertFuel 2 "a" "abcd" =
      some (some "ab", LRU.mk [("a", "abcd")] 64 6 [] 0 0) ∧
    sumLen [("a", "abcd")] = 4 := by decide

/-- C4 fails on the code: with `max_size = 1`, three one-byte insertions
drive the eviction history to length 2 > `max_size`, since the drop of the
rearmost entry happens only when the history's length already exceeds
`max_size`. -/
theorem C4_history_bound_cex :
    threeSmall.history.length = 2 ∧ threeSmall.max_size = 1 := by decide

/-- C8: with `max_size = 5`, after `insert("a", "abc")` and
`insert("b", "dfg")`, `get("a")` yields nothing, the eviction history is
exactly `["a"]`, and `has_evicted_recently("a")` is true. -/
theorem C8_eviction_case :
    (evictionCase.get "a").1 = none ∧ evictionCase.history = ["a"] ∧
      evictionCase.has_evicted_recently "a" = true := by decide

/-- C9: in a full cache of capacity 2 holding `("a", "xy")`, the key `"a"`
is present, yet `insert("a", "z")` returns no previous value: the eviction
loop pops the old `"a"` entry before the new pair is stored. -/
theorem C9_reinsert_returns_none :
    fullOfA.contains_key "a" = true ∧
      (fullOfA.insertFuel 2 "a" "z").map Prod.fst = some none := by decide

/-- On an empty map with the guard still true, the loop body makes no
progress, so no fuel suffices. -/
theorem evictLoop_stuck (vlen : Nat) :
    ∀ (fuel : Nat) (s : LRU), s.items = [] →
      s.max_size < s.current_size + vlen →
      evictLoopFuel vlen fuel s = none := by
  intro fuel
  induction fuel with
  | zero =>
      intro s hi hg
      unfold evictLoopFuel
      simp [hg]
  | succ n ih =>
      intro s hi hg
      have he : evictOnce s = s := by
        obtain ⟨items, m, c, hist, a, h⟩ := s
        simp only at hi
        subst hi
        rfl
      unfold evictLoopFuel
      simp [hg, he, ih s hi hg]

/-- C5 fails on the code: inserting the six-byte value `"abcdef"` into an
empty cache with `max_size = 5` never returns, whatever the fuel — the
Rust loop spins forever once `pop_front` yields nothing. -/
theorem C5_insert_divergence_cex :
    (LRU.new.with_max_size 5).insertDiverges "a" "abcdef" := by
  intro fuel
  unfold LRU.insertFuel
  rw [evictLoop_stuck ("abcdef".length) fuel (LRU.new.with_max_size 5) rfl
    (by decide)]

/-- With accurate size accounting, the eviction loop finishes within
`items.length` iterations whenever the incoming value fits in `max_size`. -/
theorem evictLoop_total (vlen : Nat) :
    ∀ (l : List (String × String)) (s : LRU), s.items = l →
      s.current_size = sumLen l → vlen ≤ s.max_size →
      ∃ s2, evictLoopFuel vlen l.length s = some s2 := by
  intro l
  induction l with
  | nil =>
      intro s hi hc hv
      refine ⟨s, ?_⟩
      have hng : ¬ (s.current_size + vlen > s.max_size) := by
        rw [hc]
        simpa [sumLen] using hv
      unfold evictLoopFuel
      simp [hng]
  | cons p rest ih =>
      intro s hi hc hv
      obtain ⟨items, m, c, hist, a, h⟩ := s
      obtain ⟨k, v⟩ := p
      simp only at hi hc hv ⊢
      subst hi
      simp only [List.length_cons]
      by_cases hg : c + vlen > m
      · have hc2 : c - v.length = sumLen rest := by
          rw [hc]
          simp [sumLen]
        obtain ⟨s2, h2⟩ := ih
          (LRU.mk rest m (c - v.length)
            (k :: (if hist.length > m then hist.dropLast else hist)) a h)
          rfl hc2 hv
        refine ⟨s2, ?_⟩
        unfold evictLoopFuel
        rw [if_pos hg]
        exact h2
      · refine ⟨LRU.mk ((k, v) :: rest) m c hist a h, ?_⟩
        unfold evictLoopFuel
        rw [if_neg hg]

/-- C5 amended: `get`, `contains_key` and `has_evicted_recently` are total,
and `insert(key, value)` terminates with its eviction loop bounded by the
number of current entries provided `current_size` truly equals the total
stored length and `len(value) <= max_size`; outside those provisos
(oversized value, or `current_size` inflated by the overwrite bug) the
loop can spin forever. -/
theorem C5_termination_amended (s : LRU) (key value : String)
    (hacct : s.current_size = sumLen s.items)
    (hv : value.length ≤ s.max_size) :
    ∃ r, s.insertFuel s.items.length key value = some r := by
  obtain ⟨s2, h2⟩ := evictLoop_total value.length s.items s rfl hacct hv
  refine ⟨(lookupKey s2.items key,
    { s2 with
      current_size := s2.current_size + value.length,
      items := s2.items.filter (fun p => p.1 != key) ++ [(key, value)] }), ?_⟩
  unfold LRU.insertFuel
  rw [h2]

theorem C5_termination_amended_w :
    (LRU.new.insertFuel 0 "a" "abc").isSome = true := by
  obtain ⟨r, hr⟩ := C5_termination_amended LRU.new "a" "abc" rfl (by decide)
  show (LRU.new.insertFuel LRU.new.items.length "a" "abc").isSome = true
  rw [hr]
  rfl

/-- One eviction step keeps the history within `max_size + 1` entries. -/
theorem evictOnce_histBound (s : LRU)
    (hb : s.history.length ≤ s.max_size + 1) :
    (evictOnce s).history.length ≤ (evictOnce s).max_size + 1 := by
  obtain ⟨items, m, c, hist, a, h⟩ := s
  cases items with
  | nil => exact hb
  | cons p rest =>
      obtain ⟨k, v⟩ := p
      simp only at hb
      simp only [evictOnce, List.length_cons]
      split
      · rename_i hlen
        simp only [List.length_dropLast]
        omega
      · rename_i hlen
        omega

theorem evictLoopFuel_histBound (vlen : Nat) :
    ∀ (fuel : Nat) (s s1 : LRU), evictLoopFuel vlen fuel s = some s1 →
      s.history.length ≤ s.max_size + 1 →
      s1.history.length ≤ s1.max_size + 1 := by
  intro fuel
  induction fuel with
  | zero =>
      intro s s1 h hb
      unfold evictLoopFuel at h
      by_cases hg : s.current_size + vlen > s.max_size
      · simp [hg] at h
      · simp [hg] at h
        subst h
        exact hb
  | succ n ih =>
      intro s s1 h hb
      unfold evictLoopFuel at h
      by_cases hg : s.current_size + vlen > s.max_size
      · simp [hg] at h
        exact ih (evictOnce s) s1 h (evictOnce_histBound s hb)
      · simp [hg] at h
        subst h
        exact hb

/-- C4 amended: the eviction history can hold `max_size + 1` entries (the
rearmost entry is dropped only once the length already exceeds `max_size`),
and that bound is preserved by every returning `insert`; the most recently
evicted key always sits at the front of the history. -/
theorem C4_history_bound_amended :
    (∀ (fuel : Nat) (s : LRU) (key value : String) (r : Option String × LRU),
        s.history.length ≤ s.max_size + 1 →
        s.insertFuel fuel key value = some r →
        r.2.history.length ≤ r.2.max_size + 1) ∧
    (∀ (s : LRU) (k v : String) (rest : List (String × String)),
        s.items = (k, v) :: rest →
        (evictOnce s).history.head? = some k) := by
  constructor
  · intro fuel s key value r hb h
    unfold LRU.insertFuel at h
    cases hloop : evictLoopFuel value.length fuel s with
    | none => rw [hloop] at h; exact absurd h (by simp)
    | some s1 =>
        rw [hloop] at h
        simp only [Option.some.injEq] at h
        have hb1 := evictLoopFuel_histBound value.length fuel s s1 hloop hb
        rw [← h]
        simpa using hb1
  · intro s k v rest hi
    obtain ⟨items, m, c, hist, a, h⟩ := s
    simp only at hi
    subst hi
    rfl

theorem C4_history_bound_amended_w :
    (LRU.mk [("k", "v")] 64 1 [] 0 0).history.length ≤
        (LRU.mk [("k", "v")] 64 1 [] 0 0).max_size + 1 ∧
      (evictOnce fullOfA).history.head? = some "a" :=
  ⟨C4_history_bound_amended.1 1 LRU.new "k" "v"
      (none, LRU.mk [("k", "v")] 64 1 [] 0 0) (by decide) (by decide),
    C4_history_bound_amended.2 fullOfA "a" "xy" [] (by decide)⟩

/-- Evaluated form of `LRU.get`: the pair of the looked-up value and the
state with `accesses` bumped and `hits` bumped on a hit. -/
theorem get_eq (s : LRU) (key : String) :
    s.get key = (lookupKey s.items key,
      { s with
        accesses := s.accesses + 1,
        hits := if s.contains_key key then s.hits + 1 else s.hits }) := by
  obtain ⟨items, m, c, hist, a, h⟩ := s
  unfold LRU.get LRU.contains_key
  by_cases hc : items.any (fun p => p.1 == key) <;> simp [hc]

theorem lookupKey_isSome (l : List (String × String)) (key : String) :
    (lookupKey l key).isSome = l.any (fun p => p.1 == key) := by
  induction l with
  | nil => rfl
  | cons p rest ih =>
      obtain ⟨k, v⟩ := p
      simp only [lookupKey, List.any_cons]
      by_cases hk : k == key <;> simp [hk, ih]

/-- C6: the entry evicted by an eviction step is exactly the front (oldest
inserted) entry of the ordered map, its key landing at the front of the
history, and `get` leaves the map — hence the insertion order — untouched. -/
theorem C6_eviction_order :
    (∀ (s : LRU) (k v : String) (rest : List (String × String)),
        s.items = (k, v) :: rest →
        (evictOnce s).items = rest ∧ (evictOnce s).history.head? = some k) ∧
    (∀ (s : LRU) (key : String), ((s.get key).2).items = s.items) := by
  constructor
  · intro s k v rest hi
    obtain ⟨items, m, c, hist, a, h⟩ := s
    simp only at hi
    subst hi
    exact ⟨rfl, rfl⟩
  · intro s key
    rw [get_eq]

theorem C6_eviction_order_w :
    (evictOnce threeSmall).items = [] ∧
      (evictOnce threeSmall).history.head? = some "c" :=
  C6_eviction_order.1 threeSmall "c" "z" [] (by decide)

/-- C7: `get` adds one to `accesses`, adds one to `hits` exactly on a hit,
returns the stored value when the key is present and nothing otherwise,
preserves `hits <= accesses`, and `insert` leaves both counters alone. -/
theorem C7_get_accounting :
    (∀ (s : LRU) (key : String),
        ((s.get key).2).accesses = s.accesses + 1 ∧
        ((s.get key).2).hits =
          (if s.contains_key key then s.hits + 1 else s.hits) ∧
        (s.get key).1 = lookupKey s.items key ∧
        (lookupKey s.items key).isSome = s.contains_key key ∧
        (s.hits ≤ s.accesses →
          ((s.get key).2).hits ≤ ((s.get key).2).accesses)) ∧
    (∀ (fuel : Nat) (s : LRU) (key value : String) (r : Option String × LRU),
        s.insertFuel fuel key value = some r →
        r.2.accesses = s.accesses ∧ r.2.hits = s.hits) := by
  constructor
  · intro s key
    rw [get_eq]
    refine ⟨rfl, rfl, rfl, lookupKey_isSome s.items key, ?_⟩
    intro hle
    by_cases hc : s.contains_key key <;> simp [hc] <;> omega
  · intro fuel s key value r h
    unfold LRU.insertFuel at h
    cases hloop : evictLoopFuel value.length fuel s with
    | none => rw [hloop] at h; exact absurd h (by simp)
    | some s1 =>
        rw [hloop] at h
        simp only [Option.some.injEq] at h
        obtain ⟨-, -, ha, hh⟩ := evictLoopFuel_some value.length fuel s s1 hloop
        rw [← h]
        exact ⟨ha, hh⟩

theorem C7_get_accounting_w :
    ((LRU.new.get "a").2).hits ≤ ((LRU.new.get "a").2).accesses ∧
      (LRU.mk [("q", "w")] 64 1 [] 0 0).accesses = LRU.new.accesses :=
  ⟨(C7_get_accounting.1 LRU.new "a").2.2.2.2 (by decide),
    (C7_get_accounting.2 1 LRU.new "q" "w"
      (none, LRU.mk [("q", "w")] 64 1 [] 0 0) (by decide)).1⟩

/-- C10: the same key can sit in the eviction history several times — after
alternating re-insertions of `a` and `b` in a capacity-2 cache the history
is `["a", "b", "a"]` — and `has_evicted_recently` answers true for any key
occurring anywhere in the history. -/
theorem C10_duplicate_history :
    alternating.history = ["a", "b", "a"] ∧
    (∀ (s : LRU) (key : String), key ∈ s.history →
        s.has_evicted_recently key = true) := by
  refine ⟨by decide, ?_⟩
  intro s key hk
  unfold LRU.has_evicted_recently
  exact List.any_eq_true.mpr ⟨key, hk, beq_self_eq_true key⟩

theorem C10_duplicate_history_w :
    alternating.has_evicted_recently "a" = true :=
  C10_duplicate_history.2 alternating "a" (by decide)
